import Mathlib

/-!
Verification of the sunspec_model_viewer core against its specification.

The development shallowly embeds the algorithmic core of the repository:

* the tree builder and search filter of `TreeView.tsx` (`createTreeNode`,
  `filterNode`, the `filteredTree` guard);
* the catalog service (`extractModelInfo`, `getAllModelsWithMetadata`,
  `categorizeModels`);
* the model-selection handler of `App.tsx` (`handleModelSelect`).

JavaScript strings are embedded as Lean `String` / `List Char`; the decimal
rendering of numbers in template literals is core's `Nat.repr`, and
JavaScript's stable `Array.prototype.sort` with comparator `a.id - b.id` is
embedded as an explicit stable insertion sort.  Sets of node identifiers
(`Set<string>`) are embedded as lists of strings with `contains` membership.
Fallible network operations are passed in as explicit `Option`-valued fetch
functions, so fan-out plus `Promise.all` becomes an order-preserving `map`.
-/

set_option maxHeartbeats 1600000

namespace SMV

/-! ## Data model (types.ts shapes used by the embedded code) -/

/-- A SunSpec point: the fields of `Point` the embedded code reads. -/
structure Point where
  name : String
  label : Option String
  desc : Option String
  deriving Repr, DecidableEq

/-- A SunSpec group: a named container of points and nested groups.
Optional `points` / `groups` arrays are embedded as (possibly empty) lists. -/
inductive Group : Type where
  | mk (name : String) (label : Option String) (desc : Option String)
       (points : List Point) (groups : List Group) : Group
  deriving Repr

def Group.name : Group → String
  | .mk n _ _ _ _ => n

def Group.labelOf : Group → Option String
  | .mk _ l _ _ _ => l

def Group.descOf : Group → Option String
  | .mk _ _ d _ _ => d

def Group.points : Group → List Point
  | .mk _ _ _ ps _ => ps

def Group.groups : Group → List Group
  | .mk _ _ _ _ gs => gs

/-- A SunSpec model document as consumed by `TreeView`.  The builder guards on
`model.group`, so the group is embedded as optional. -/
structure SunSpecModel where
  id : Nat
  label : Option String
  desc : Option String
  group : Option Group

/-- A raw fetched JSON document, before validation: every field may be absent.
Used by `extractModelInfo` and by `App.handleModelSelect`. -/
structure RawDoc where
  id : Option Nat
  label : Option String
  desc : Option String
  group : Option Group

/-- Catalog entry metadata (`ModelInfo`). -/
structure ModelInfo where
  id : Nat
  name : String
  label : Option String
  desc : Option String
  filename : String
  deriving Repr, DecidableEq

/-- A GitHub listing entry (`GitHubFile`). -/
structure GitHubFile where
  name : String
  path : String
  download_url : String

/-! ## JavaScript string helpers -/

/-- JS truthiness of an optional string: `undefined` and `""` are falsy. -/
def strTruthy : Option String → Bool
  | none => false
  | some s => !(s == "")

/-- JS `a || b` on optional strings. -/
def jsOr (a b : Option String) : Option String :=
  if strTruthy a then a else b

/-- JS `hay.includes(needle)`: substring containment. -/
def containsSub (hay needle : List Char) : Bool :=
  if needle.isPrefixOf hay then true
  else
    match hay with
    | [] => false
    | _ :: t => containsSub t needle

/-- JS `s.toLowerCase()` (ASCII-adequate embedding). -/
def strLower (s : String) : String := ⟨s.data.map Char.toLower⟩

/-- JS `s.replace(".json", "")`: remove the FIRST occurrence of `".json"`
(string-pattern `replace` touches only the first match). -/
def removeFirstJson : List Char → List Char
  | [] => []
  | c :: rest =>
    if ('.' :: 'j' :: 's' :: 'o' :: 'n' :: []).isPrefixOf (c :: rest) then rest.drop 4
    else c :: removeFirstJson rest

/-- Numeric value of a list of decimal digit characters (JS `parseInt` on the
captured digits of the regex). -/
def digitsToNat (ds : List Char) : Nat :=
  ds.foldl (fun acc c => acc * 10 + (c.toNat - 48)) 0

/-- One attempt of the regex `/model_(\d+)\.json/` at the start of `s`:
`"model_"`, then a maximal nonempty digit run, then `".json"`.  (The `\d+` is
greedy, and backtracking it can never succeed: a shorter digit run leaves a
digit where `\.` must match.) -/
def matchModelIdAt (s : List Char) : Option Nat :=
  if ('m' :: 'o' :: 'd' :: 'e' :: 'l' :: '_' :: []).isPrefixOf s then
    let t := s.drop 6
    let ds := t.takeWhile Char.isDigit
    if ds.isEmpty then none
    else if ('.' :: 'j' :: 's' :: 'o' :: 'n' :: []).isPrefixOf (t.drop ds.length) then
      some (digitsToNat ds)
    else none
  else none

/-- Leftmost match of `/model_(\d+)\.json/` (JS `String.prototype.match`). -/
def findModelId : List Char → Option Nat
  | [] => none
  | c :: rest =>
    match matchModelIdAt (c :: rest) with
    | some n => some n
    | none => findModelId rest

/-! ## GitHubService.extractModelInfo -/

/-- Result shape of `extractModelInfo`. -/
structure ModelMeta where
  id : Nat
  name : String
  label : Option String
  desc : Option String
  deriving Repr, DecidableEq

/-- `GitHubService.extractModelInfo(filename, modelData)`:
id from the filename regex, else `modelData.id || 0`;
name strips the first `".json"`; label/desc fall back to the group's. -/
def extractModelInfo (filename : String) (modelData : RawDoc) : ModelMeta :=
  { id :=
      match findModelId filename.data with
      | some n => n
      | none => match modelData.id with | some k => k | none => 0
    name := ⟨removeFirstJson filename.data⟩
    label := jsOr modelData.label (modelData.group.bind Group.labelOf)
    desc := jsOr modelData.desc (modelData.group.bind Group.descOf) }

/-! ## GitHubService.getAllModelsWithMetadata -/

/-- `{...extractModelInfo(file.name, modelData), filename: file.name}`. -/
def toModelInfo (filename : String) (modelData : RawDoc) : ModelInfo :=
  let info := extractModelInfo filename modelData
  { id := info.id, name := info.name, label := info.label, desc := info.desc
    filename := filename }

/-- Stable insertion of one entry: it goes after every already-placed entry of
smaller-or-equal id.  Together with the left fold below this embeds
JS `Array.prototype.sort((a, b) => a.id - b.id)`, which ECMAScript requires to
be a stable sort consistent with that comparator. -/
def catInsert (x : ModelInfo) : List ModelInfo → List ModelInfo
  | [] => [x]
  | y :: ys => if y.id ≤ x.id then y :: catInsert x ys else x :: y :: ys

/-- `validModels.sort((a, b) => a.id - b.id)` as a stable sort. -/
def sortById (l : List ModelInfo) : List ModelInfo :=
  l.foldl (fun acc x => catInsert x acc) []

/-- `GitHubService.getAllModelsWithMetadata`, with the listing and the
per-document fetch (`getModel`) passed explicitly; `none` is a fetch that
threw.  `Promise.all` keeps listing order, the per-item `catch` maps a failed
item to `null`, and `filter(Boolean)` drops the nulls. -/
def getAllModelsWithMetadata (files : List GitHubFile)
    (fetch : String → Option RawDoc) : List ModelInfo :=
  let results : List (Option ModelInfo) :=
    files.map fun f =>
      match fetch f.name with
      | some modelData => some (toModelInfo f.name modelData)
      | none => none
  sortById (results.filterMap (fun x => x))

/-! ## GitHubService.categorizeModels -/

/-- One output bucket. -/
structure Category where
  range : String
  description : String
  models : List ModelInfo
  deriving Repr, DecidableEq

/-- The fixed bucket table, in declaration order. -/
def categoryTable : List (String × String) :=
  [("1-99", "Common & Basic Models"),
   ("100-199", "Inverter Models"),
   ("200-299", "Meter Models"),
   ("300-399", "Environmental Models"),
   ("400-499", "String Combiner Models"),
   ("500-599", "Panel Models"),
   ("600-699", "Tracker Models"),
   ("700-799", "DER Control Models"),
   ("800-899", "Storage Models"),
   ("900+", "Extended & Custom Models")]

/-- The `if (model.id < 100) ... else` chain deciding a model's bucket. -/
def bucketKey (id : Nat) : String :=
  if id < 100 then "1-99"
  else if id < 200 then "100-199"
  else if id < 300 then "200-299"
  else if id < 400 then "300-399"
  else if id < 500 then "400-499"
  else if id < 600 then "500-599"
  else if id < 700 then "600-699"
  else if id < 800 then "700-799"
  else if id < 900 then "800-899"
  else "900+"

/-- `GitHubService.categorizeModels`: the imperative per-model append into the
bucket record is rendered per bucket as an order-preserving filter; the final
pass drops empty buckets, keeping record-key (table) order. -/
def categorizeModels (models : List ModelInfo) : List (String × Category) :=
  (categoryTable.map fun kd =>
      (kd.1, { range := kd.1, description := kd.2
               models := models.filter fun m => bucketKey m.id == kd.1 : Category }))
    |>.filter fun kc => !kc.2.models.isEmpty

/-! ## TreeView: tree construction -/

inductive NodeKind : Type where
  | model | group | point
  deriving Repr, DecidableEq

/-- The `data` payload carried by a `TreeNode`. -/
inductive NodeData : Type where
  | model (m : SunSpecModel)
  | group (g : Group)
  | point (p : Point)

/-- `TreeNode` of `types.ts`: an addressable tree node. -/
inductive TreeNode : Type where
  | mk (id : String) (name : String) (label : Option String) (type : NodeKind)
       (isExpanded : Bool) (children : List TreeNode) (data : NodeData)
       (level : Nat) : TreeNode

def TreeNode.id : TreeNode → String
  | .mk i _ _ _ _ _ _ _ => i

def TreeNode.name : TreeNode → String
  | .mk _ n _ _ _ _ _ _ => n

def TreeNode.label : TreeNode → Option String
  | .mk _ _ l _ _ _ _ _ => l

def TreeNode.type : TreeNode → NodeKind
  | .mk _ _ _ t _ _ _ _ => t

def TreeNode.isExpanded : TreeNode → Bool
  | .mk _ _ _ _ e _ _ _ => e

def TreeNode.children : TreeNode → List TreeNode
  | .mk _ _ _ _ _ c _ _ => c

def TreeNode.data : TreeNode → NodeData
  | .mk _ _ _ _ _ _ d _ => d

def TreeNode.level : TreeNode → Nat
  | .mk _ _ _ _ _ _ _ l => l

/-- The `createTreeNode` call for one point child. -/
def pointToNode (expandedNodes : List String) (id : String) (lvl : Nat)
    (p : Point) : TreeNode :=
  .mk id p.name p.label .point (expandedNodes.contains id) [] (.point p) lvl

/-- The `points.forEach((point, index) => ...)` loop of `createTreeNode`,
generating ids `id + "_point_" + index`. -/
def pointChildren (expandedNodes : List String) (id : String) (lvl : Nat)
    (i : Nat) : List Point → List TreeNode
  | [] => []
  | p :: ps =>
      pointToNode expandedNodes (id ++ "_point_" ++ Nat.repr i) lvl p ::
        pointChildren expandedNodes id lvl (i + 1) ps

mutual

/-- The `createTreeNode` call for a group: expansion from
`expandedNodes.has(id)`, children are the points (in order) followed by the
nested groups (in order). -/
def groupToNode (expandedNodes : List String) (id : String) (lvl : Nat) :
    Group → TreeNode
  | .mk name label desc pts gs =>
      .mk id name label .group (expandedNodes.contains id)
        (pointChildren expandedNodes id (lvl + 1) 0 pts ++
          groupChildren expandedNodes id (lvl + 1) 0 gs)
        (.group (.mk name label desc pts gs)) lvl

/-- The `groups.forEach((group, index) => ...)` loop of `createTreeNode`,
generating ids `id + "_group_" + index`. -/
def groupChildren (expandedNodes : List String) (id : String) (lvl : Nat)
    (i : Nat) : List Group → List TreeNode
  | [] => []
  | g :: gs =>
      groupToNode expandedNodes (id ++ "_group_" ++ Nat.repr i) lvl g ::
        groupChildren expandedNodes id lvl (i + 1) gs

end

/-- `buildTree`: `createTreeNode('root', "Model " + model.id, model.label,
'model', model)`, with the single `"root_group"` child when `model.group`
is present. -/
def buildTree (expandedNodes : List String) (model : SunSpecModel) : TreeNode :=
  .mk "root" ("Model " ++ Nat.repr model.id) model.label .model
    (expandedNodes.contains "root")
    (match model.group with
     | some g => [groupToNode expandedNodes "root_group" 1 g]
     | none => [])
    (.model model) 0

/-! ## TreeView: search filter -/

/-- The `desc` property read off `node.data` (every payload shape has one,
matching the untyped property access `(node.data as Point).desc`). -/
def NodeData.descOf : NodeData → Option String
  | .model m => m.desc
  | .group g => g.descOf
  | .point p => p.desc

/-- `matchesSearch` of `filterNode`: case-insensitive substring match of the
term against the node's name, its label when present, and — only for point
nodes — the payload's `desc`. -/
def matchesSearch (term : String) (nd : TreeNode) : Bool :=
  containsSub (strLower nd.name).data (strLower term).data ||
  (match nd.label with
   | some l => containsSub (strLower l).data (strLower term).data
   | none => false) ||
  (nd.type == .point &&
   (match nd.data.descOf with
    | some d => containsSub (strLower d).data (strLower term).data
    | none => false))

mutual

/-- `filterNode`: keep a node iff it matches or some child survives; a kept
node gets the surviving children and `isExpanded: true`. -/
def filterNode (term : String) : TreeNode → Option TreeNode
  | .mk id name label ty exp children data lvl =>
      let fc := filterChildren term children
      if matchesSearch term (.mk id name label ty exp children data lvl) ||
          !fc.isEmpty then
        some (.mk id name label ty true fc data lvl)
      else none

/-- `node.children.map(filterNode).filter(Boolean)`. -/
def filterChildren (term : String) : List TreeNode → List TreeNode
  | [] => []
  | c :: cs =>
      match filterNode term c with
      | some c' => c' :: filterChildren term cs
      | none => filterChildren term cs

end

/-- The `filteredTree` memo: `if (!searchTerm) return buildTree` guard, then
`filterNode`. -/
def filteredTree (term : String) (tree : TreeNode) : Option TreeNode :=
  if term == "" then some tree else filterNode term tree

/-! ## App.handleModelSelect -/

/-- The component state of `App` touched by `handleModelSelect`. -/
structure AppState where
  model : Option SunSpecModel
  selectedModelInfo : Option ModelInfo
  error : String
  isLoading : Bool

/-- The validation failure message thrown by `handleModelSelect`. -/
def invalidModelMsg : String :=
  "Invalid SunSpec model format. Missing required \"id\" or \"group\" properties."

/-- The message of the error rethrown by `GitHubService.getModel` on any
transport/parse failure. -/
def transportMsg (filename : String) : String :=
  "Failed to load model: " ++ filename

/-- JS falsiness of the optional numeric `id` (`!modelData.id`): absent or 0. -/
def jsFalsyNat : Option Nat → Bool
  | none => true
  | some n => n == 0

/-- The successfully validated document, viewed as a `SunSpecModel`
(`modelData as SunSpecModel`). -/
def toModel (doc : RawDoc) : SunSpecModel :=
  { id := (doc.id).getD 0, label := doc.label, desc := doc.desc
    group := doc.group }

/-- `App.handleModelSelect`: set loading/selection, fetch, validate
(`!modelData.id || !modelData.group` throws), store the model on success;
the `catch` stores the error message and clears the selection; the `finally`
clears the loading flag. -/
def handleModelSelect (fetch : String → Option RawDoc) (modelInfo : ModelInfo)
    (s : AppState) : AppState :=
  let s1 : AppState :=
    { s with isLoading := true, error := "", selectedModelInfo := some modelInfo }
  match fetch modelInfo.filename with
  | none =>
      { s1 with error := transportMsg modelInfo.filename,
                selectedModelInfo := none, isLoading := false }
  | some modelData =>
      if jsFalsyNat modelData.id || modelData.group.isNone then
        { s1 with error := invalidModelMsg,
                  selectedModelInfo := none, isLoading := false }
      else
        { s1 with model := some (toModel modelData), isLoading := false }

end SMV

namespace SMV

/-! ## Analysis: induction principles for the nested inductives -/

/-- Structural induction for `Group` exposing membership in the nested list. -/
theorem Group.memInduction (P : Group → Prop)
    (h : ∀ name label desc pts gs, (∀ g ∈ gs, P g) →
      P (Group.mk name label desc pts gs)) :
    ∀ g, P g
  | .mk name label desc pts gs =>
      h name label desc pts gs (fun g _ => Group.memInduction P h g)

/-- Structural induction for `TreeNode` exposing membership in the children. -/
theorem TreeNode.childInduction (P : TreeNode → Prop)
    (h : ∀ id name label ty exp children data lvl,
      (∀ c ∈ children, P c) →
      P (TreeNode.mk id name label ty exp children data lvl)) :
    ∀ nd, P nd
  | .mk id name label ty exp children data lvl =>
      h id name label ty exp children data lvl (fun c _ => TreeNode.childInduction P h c)

/-! ## Analysis: node collectors -/

mutual

/-- All nodes of a tree, in preorder. -/
def allNodes : TreeNode → List TreeNode
  | .mk id name label ty exp children data lvl =>
      .mk id name label ty exp children data lvl :: allNodesList children

def allNodesList : List TreeNode → List TreeNode
  | [] => []
  | c :: cs => allNodes c ++ allNodesList cs

end

/-- All node ids of a tree, in preorder. -/
def allIds (nd : TreeNode) : List String := (allNodes nd).map TreeNode.id

mutual

/-- The same tree with every `isExpanded` flag erased to `false`. -/
def eraseExp : TreeNode → TreeNode
  | .mk id name label ty _ children data lvl =>
      .mk id name label ty false (eraseExpList children) data lvl

def eraseExpList : List TreeNode → List TreeNode
  | [] => []
  | c :: cs => eraseExp c :: eraseExpList cs

end

/-- The payload of a point-kind node. -/
def pointDataOf : TreeNode → Option Point
  | .mk _ _ _ .point _ _ (.point p) _ => some p
  | _ => none

/-- The payload of a group-kind node. -/
def groupDataOf : TreeNode → Option Group
  | .mk _ _ _ .group _ _ (.group g) _ => some g
  | _ => none

/-- The points represented by the point-kind nodes of a tree, in preorder. -/
def treePoints (nd : TreeNode) : List Point := (allNodes nd).filterMap pointDataOf

/-- The groups represented by the group-kind nodes of a tree, in preorder. -/
def treeGroups (nd : TreeNode) : List Group := (allNodes nd).filterMap groupDataOf

mutual

/-- All points transitively reachable from a group, in preorder. -/
def reachPoints : Group → List Point
  | .mk _ _ _ pts gs => pts ++ reachPointsList gs

def reachPointsList : List Group → List Point
  | [] => []
  | g :: gs => reachPoints g ++ reachPointsList gs

end

mutual

/-- All groups transitively reachable from a group (itself included),
in preorder. -/
def reachGroups : Group → List Group
  | .mk name label desc pts gs =>
      .mk name label desc pts gs :: reachGroupsList gs

def reachGroupsList : List Group → List Group
  | [] => []
  | g :: gs => reachGroups g ++ reachGroupsList gs

end

/-- The points reachable from a model. -/
def modelPoints (m : SunSpecModel) : List Point :=
  match m.group with
  | some g => reachPoints g
  | none => []

/-- The groups reachable from a model. -/
def modelGroups (m : SunSpecModel) : List Group :=
  match m.group with
  | some g => reachGroups g
  | none => []

/-! ## Analysis: structural paths and the ids they determine -/

/-- One step of a structural path: the point or nested-group index taken. -/
inductive Seg : Type where
  | pt (i : Nat)
  | gp (i : Nat)
  deriving Repr, DecidableEq

/-- Decimal digit characters of a natural number, most significant first:
the specification of `Nat.repr`'s character data. -/
def digitsList (n : Nat) : List Char :=
  if n < 10 then [Nat.digitChar n]
  else digitsList (n / 10) ++ [Nat.digitChar (n % 10)]
decreasing_by exact Nat.div_lt_self (by omega) (by omega)

/-- The id fragment contributed by one path step. -/
def segStr : Seg → List Char
  | .pt i => '_' :: 'p' :: 'o' :: 'i' :: 'n' :: 't' :: '_' :: digitsList i
  | .gp i => '_' :: 'g' :: 'r' :: 'o' :: 'u' :: 'p' :: '_' :: digitsList i

/-- The id suffix determined by a structural path. -/
def pathStr (p : List Seg) : List Char := (p.map segStr).flatten

/-- The id of the node at structural path `p` below a subtree root whose own
id is `base`. -/
def idOfPath (base : String) (p : List Seg) : String := ⟨base.data ++ pathStr p⟩

/-- Paths of the point children of a group, starting at point index `i`. -/
def ptPaths (i : Nat) : List Point → List (List Seg)
  | [] => []
  | _ :: ps => [Seg.pt i] :: ptPaths (i + 1) ps

mutual

/-- All structural paths of the tree a group generates: the group itself,
its points, then its nested groups' paths, each prefixed with its index. -/
def gpaths : Group → List (List Seg)
  | .mk _ _ _ pts gs => [] :: (ptPaths 0 pts ++ gpathsList 0 gs)

def gpathsList (i : Nat) : List Group → List (List Seg)
  | [] => []
  | g :: gs => (gpaths g).map (fun p => Seg.gp i :: p) ++ gpathsList (i + 1) gs

end

/-- The node ids of the tree built from a model, as a function of the model's
structure alone (no expansion state). -/
def modelIds (m : SunSpecModel) : List String :=
  "root" ::
    (match m.group with
     | some g => (gpaths g).map (idOfPath "root_group")
     | none => [])

end SMV

namespace SMV

/-! ## Basic string and list lemmas -/

theorem strExt {a b : String} (h : a.data = b.data) : a = b := by
  cases a; cases b; exact congrArg String.mk h

theorem allNodesList_mem {nd : TreeNode} {cs : List TreeNode} :
    nd ∈ allNodesList cs ↔ ∃ c ∈ cs, nd ∈ allNodes c := by
  induction cs with
  | nil => simp [allNodesList]
  | cons c cs ih => simp [allNodesList, ih, List.mem_append, or_and_right, exists_or]

/-! ## Filter lemmas -/

/-- Unfolding of `filterNode` through the accessors. -/
theorem filterNode_eq (term : String) (nd : TreeNode) :
    filterNode term nd =
      if matchesSearch term nd || !(filterChildren term nd.children).isEmpty then
        some (TreeNode.mk nd.id nd.name nd.label nd.type true
          (filterChildren term nd.children) nd.data nd.level)
      else none := by
  cases nd; rfl

theorem filterChildren_eq (term : String) (cs : List TreeNode) :
    filterChildren term cs = cs.filterMap (filterNode term) := by
  induction cs with
  | nil => rfl
  | cons c cs ih =>
      rw [filterChildren, List.filterMap_cons, ih]
      cases filterNode term c <;> simp

theorem filterChildren_mem {term : String} {c' : TreeNode} {cs : List TreeNode}
    (h : c' ∈ filterChildren term cs) : ∃ c ∈ cs, filterNode term c = some c' := by
  induction cs with
  | nil => simp [filterChildren] at h
  | cons c cs ih =>
      rw [filterChildren] at h
      rcases hc : filterNode term c with _ | v <;> rw [hc] at h
      · rcases ih h with ⟨d, hd, hfd⟩
        exact ⟨d, List.mem_cons_of_mem _ hd, hfd⟩
      · rcases List.mem_cons.1 h with h1 | h1
        · exact ⟨c, List.mem_cons_self _ _, by rw [hc, h1]⟩
        · rcases ih h1 with ⟨d, hd, hfd⟩
          exact ⟨d, List.mem_cons_of_mem _ hd, hfd⟩

/-- Shape of any retained node: original fields, forced expansion, filtered
children. -/
theorem filterNode_some {term : String} {nd nd' : TreeNode}
    (h : filterNode term nd = some nd') :
    nd' = TreeNode.mk nd.id nd.name nd.label nd.type true
      (filterChildren term nd.children) nd.data nd.level := by
  rw [filterNode_eq] at h
  by_cases hc : (matchesSearch term nd || !(filterChildren term nd.children).isEmpty) = true
  · rw [if_pos hc] at h
    exact (Option.some.inj h).symm
  · rw [if_neg hc] at h
    cases h

theorem filterNode_none_iff {term : String} {nd : TreeNode} :
    filterNode term nd = none ↔
      matchesSearch term nd = false ∧ nd.children.filterMap (filterNode term) = [] := by
  rw [filterNode_eq, ← filterChildren_eq]
  by_cases hc : (matchesSearch term nd || !(filterChildren term nd.children).isEmpty) = true
  · rw [if_pos hc]
    simp only [Bool.or_eq_true, Bool.not_eq_true'] at hc
    constructor
    · intro h; cases h
    · rintro ⟨h1, h2⟩
      rcases hc with hc | hc
      · rw [h1] at hc; cases hc
      · rw [h2] at hc; cases hc
  · rw [if_neg hc]
    simp only [Bool.or_eq_true, Bool.not_eq_true', not_or, Bool.not_eq_true] at hc
    refine ⟨fun _ => ⟨hc.1, ?_⟩, fun _ => rfl⟩
    have h3 : (filterChildren term nd.children).isEmpty = true := by
      revert hc; cases (filterChildren term nd.children).isEmpty <;> simp
    exact List.isEmpty_iff.1 h3

/-- Every node of a filtered tree agrees with a node of the input tree on
everything except the children list and the expansion flag. -/
theorem filter_preserves_frames (term : String) :
    ∀ t t', filterNode term t = some t' →
      ∀ nd' ∈ allNodes t', ∃ nd ∈ allNodes t,
        nd.id = nd'.id ∧ nd.name = nd'.name ∧ nd.label = nd'.label ∧
        nd.type = nd'.type ∧ nd.data = nd'.data ∧ nd.level = nd'.level := by
  intro t
  induction t using TreeNode.childInduction with
  | h id name label ty exp children data lvl ih =>
      intro t' ht' nd' hnd'
      have hshape := filterNode_some ht'
      subst hshape
      rw [allNodes] at hnd'
      rcases List.mem_cons.1 hnd' with h1 | h1
      · subst h1
        refine ⟨TreeNode.mk id name label ty exp children data lvl, ?_, ?_⟩
        · rw [allNodes]; exact List.mem_cons_self _ _
        · simp [TreeNode.id, TreeNode.name, TreeNode.label, TreeNode.type,
            TreeNode.data, TreeNode.level]
      · rcases allNodesList_mem.1 h1 with ⟨c', hc', hmem⟩
        simp only [TreeNode.children] at hc'
        rcases filterChildren_mem hc' with ⟨c, hc, hfc⟩
        rcases ih c hc c' hfc nd' hmem with ⟨nd, hnd, hagree⟩
        refine ⟨nd, ?_, hagree⟩
        rw [allNodes]
        exact List.mem_cons_of_mem _ (allNodesList_mem.2 ⟨c, hc, hnd⟩)

end SMV

namespace SMV

/-! ## Concrete sample data for witnesses and counterexamples -/

/-- The ancestor-preservation example of the spec: a Settings group holding a
Voltage point (label "Volt AC") and a Current point. -/
def sampleModel : SunSpecModel :=
  { id := 1, label := none, desc := none
    group := some (Group.mk "Settings" none none
      [⟨"Voltage", some "Volt AC", none⟩, ⟨"Current", none, none⟩] []) }

def sampleTree : TreeNode := buildTree ["root"] sampleModel

/-- `filterNode "volt"` on `sampleTree`: the Current point is pruned, the
retained chain is force-expanded. -/
def sampleFiltered : TreeNode :=
  .mk "root" "Model 1" none .model true
    [.mk "root_group" "Settings" none .group true
      [.mk "root_group_point_0" "Voltage" (some "Volt AC") .point true []
        (.point ⟨"Voltage", some "Volt AC", none⟩) 2]
      (.group (Group.mk "Settings" none none
        [⟨"Voltage", some "Volt AC", none⟩, ⟨"Current", none, none⟩] [])) 1]
    (.model sampleModel) 0

/-- A collapsed, matching, childless point node: the input of the C1
counterexample. -/
def cexNode : TreeNode :=
  .mk "x" "Voltage" none .point false [] (.point ⟨"Voltage", none, none⟩) 2

/-! ## Claim C1 (corrected) -/

/-- C1, counterexample: on a childless matching node whose stored expansion
flag is `false`, `keptChildren` is empty, so the claim's result — a copy of
the node with `children = keptChildren` and expansion forced only when
`keptChildren` is non-empty — is the node itself; the code instead forces
`isExpanded := true` on every retained node. -/
theorem claim_C1_cex :
    matchesSearch "volt" cexNode = true ∧
    cexNode.children.filterMap (filterNode "volt") = [] ∧
    cexNode.isExpanded = false ∧
    filterNode "volt" cexNode =
      some (TreeNode.mk "x" "Voltage" none .point true []
        (.point ⟨"Voltage", none, none⟩) 2) ∧
    filterNode "volt" cexNode ≠ some cexNode := by
  refine ⟨rfl, rfl, rfl, rfl, ?_⟩
  intro h
  rw [show filterNode "volt" cexNode =
      some (TreeNode.mk "x" "Voltage" none .point true []
        (.point ⟨"Voltage", none, none⟩) 2) from rfl] at h
  simp only [cexNode, Option.some.injEq, TreeNode.mk.injEq] at h
  exact Bool.true_eq_false.mp h.2.2.2.2.1

/-- C1 as amended: an empty term returns the tree unchanged; for a non-empty
term the guard hands the tree to `filterNode`; a node is dropped iff it does
not match and no child survives; and every retained node is a copy with the
surviving children and `isExpanded` forced to `true` unconditionally (also
when `keptChildren` is empty). -/
theorem claim_C1 (term : String) (nd : TreeNode) :
    filteredTree "" nd = some nd ∧
    (term ≠ "" → filteredTree term nd = filterNode term nd) ∧
    (filterNode term nd = none ↔
      matchesSearch term nd = false ∧
        nd.children.filterMap (filterNode term) = []) ∧
    (∀ nd', filterNode term nd = some nd' →
      nd' = TreeNode.mk nd.id nd.name nd.label nd.type true
        (nd.children.filterMap (filterNode term)) nd.data nd.level) := by
  refine ⟨rfl, ?_, filterNode_none_iff, ?_⟩
  · intro h
    have hbeq : (term == "") = false := by
      cases hb : term == "" with
      | false => rfl
      | true => exact absurd (by simpa using hb) h
    rw [filteredTree, hbeq]
    simp
  · intro nd' h
    rw [← filterChildren_eq]
    exact filterNode_some h

/-- C1 witness: the amended claim applied to the "volt" search on the sample
tree. -/
theorem claim_C1_witness :
    (("volt" : String) ≠ "" ∧
      filteredTree "volt" sampleTree = filterNode "volt" sampleTree) ∧
    filterNode "volt" sampleTree = some sampleFiltered :=
  ⟨⟨by decide, (claim_C1 "volt" sampleTree).2.1 (by decide)⟩, rfl⟩

/-! ## Claim C10 (confirmed) -/

/-- C10: filtering never invents or rewrites node identity: every node of the
filtered tree corresponds to a node of the input tree with the same id, name,
label, kind, payload reference and depth, and every id of the filtered tree
is an id of the unfiltered tree. -/
theorem claim_C10 (term : String) (t t' : TreeNode) (_hterm : term ≠ "")
    (h : filterNode term t = some t') :
    (∀ nd' ∈ allNodes t', ∃ nd ∈ allNodes t,
      nd.id = nd'.id ∧ nd.name = nd'.name ∧ nd.label = nd'.label ∧
      nd.type = nd'.type ∧ nd.data = nd'.data ∧ nd.level = nd'.level) ∧
    (∀ i ∈ allIds t', i ∈ allIds t) := by
  refine ⟨filter_preserves_frames term t t' h, ?_⟩
  intro i hi
  rcases List.mem_map.1 hi with ⟨nd', hnd', hid⟩
  rcases filter_preserves_frames term t t' h nd' hnd' with ⟨nd, hnd, hagree⟩
  exact List.mem_map.2 ⟨nd, hnd, by rw [hagree.1, hid]⟩

/-- C10 witness: the filtered sample tree only carries ids of the unfiltered
sample tree. -/
theorem claim_C10_witness :
    (("volt" : String) ≠ "" ∧ filterNode "volt" sampleTree = some sampleFiltered) ∧
    (∀ i ∈ allIds sampleFiltered, i ∈ allIds sampleTree) :=
  ⟨⟨by decide, rfl⟩, (claim_C10 "volt" sampleTree sampleFiltered (by decide) rfl).2⟩

end SMV

namespace SMV

/-! ## Builder lemmas -/

/-- Unfolding of `groupToNode` through the accessors. -/
theorem groupToNode_eq (expS : List String) (id : String) (lvl : Nat) (g : Group) :
    groupToNode expS id lvl g =
      .mk id g.name g.labelOf .group (expS.contains id)
        (pointChildren expS id (lvl + 1) 0 g.points ++
          groupChildren expS id (lvl + 1) 0 g.groups)
        (.group g) lvl := by
  cases g; rfl

theorem pointChildren_map_id (expS : List String) (id : String) (lvl : Nat) :
    ∀ (pts : List Point) (i : Nat),
      (pointChildren expS id lvl i pts).map TreeNode.id =
        (List.range pts.length).map (fun k => id ++ "_point_" ++ Nat.repr (i + k)) := by
  intro pts
  induction pts with
  | nil => intro i; rfl
  | cons p ps ih =>
      intro i
      rw [pointChildren, List.map_cons, List.length_cons, List.range_succ_eq_map,
        List.map_cons, List.map_map, ih (i + 1)]
      refine congrArg₂ List.cons (by simp [pointToNode, TreeNode.id]) ?_
      refine congrArg₂ List.map (funext fun k => ?_) rfl
      simp only [Function.comp]
      rw [show i + 1 + k = i + (k + 1) from by omega]

theorem groupChildren_map_id (expS : List String) (id : String) (lvl : Nat) :
    ∀ (gs : List Group) (i : Nat),
      (groupChildren expS id lvl i gs).map TreeNode.id =
        (List.range gs.length).map (fun k => id ++ "_group_" ++ Nat.repr (i + k)) := by
  intro gs
  induction gs with
  | nil => intro i; rfl
  | cons g gs ih =>
      intro i
      rw [groupChildren, List.map_cons, List.length_cons, List.range_succ_eq_map,
        List.map_cons, List.map_map, ih (i + 1)]
      have hid : (groupToNode expS (id ++ "_group_" ++ Nat.repr i) lvl g).id =
          id ++ "_group_" ++ Nat.repr i := by
        rw [groupToNode_eq]; rfl
      refine congrArg₂ List.cons (by rw [hid, Nat.add_zero]) ?_
      refine congrArg₂ List.map (funext fun k => ?_) rfl
      simp only [Function.comp]
      rw [show i + 1 + k = i + (k + 1) from by omega]

theorem pointChildren_map_data (expS : List String) (id : String) (lvl : Nat) :
    ∀ (pts : List Point) (i : Nat),
      (pointChildren expS id lvl i pts).map TreeNode.data = pts.map NodeData.point := by
  intro pts
  induction pts with
  | nil => intro i; rfl
  | cons p ps ih => intro i; rw [pointChildren, List.map_cons, List.map_cons, ih (i + 1)]; rfl

theorem groupChildren_map_data (expS : List String) (id : String) (lvl : Nat) :
    ∀ (gs : List Group) (i : Nat),
      (groupChildren expS id lvl i gs).map TreeNode.data = gs.map NodeData.group := by
  intro gs
  induction gs with
  | nil => intro i; rfl
  | cons g gs ih =>
      intro i
      rw [groupChildren, List.map_cons, List.map_cons, ih (i + 1)]
      refine congrArg₂ _ ?_ rfl
      rw [groupToNode_eq]; rfl

theorem pointChildren_map_type (expS : List String) (id : String) (lvl : Nat) :
    ∀ (pts : List Point) (i : Nat),
      (pointChildren expS id lvl i pts).map TreeNode.type =
        List.replicate pts.length NodeKind.point := by
  intro pts
  induction pts with
  | nil => intro i; rfl
  | cons p ps ih =>
      intro i
      rw [pointChildren, List.map_cons, List.length_cons, List.replicate_succ, ih (i + 1)]
      rfl

theorem groupChildren_map_type (expS : List String) (id : String) (lvl : Nat) :
    ∀ (gs : List Group) (i : Nat),
      (groupChildren expS id lvl i gs).map TreeNode.type =
        List.replicate gs.length NodeKind.group := by
  intro gs
  induction gs with
  | nil => intro i; rfl
  | cons g gs ih =>
      intro i
      rw [groupChildren, List.map_cons, List.length_cons, List.replicate_succ, ih (i + 1)]
      refine congrArg₂ _ ?_ rfl
      rw [groupToNode_eq]; rfl

/-! ## Claim C2 (confirmed) -/

/-- C2: the root node carries id "root", name "Model " + model.id, the
model's label and kind model, and has exactly the one `"root_group"` child
built from `model.group` when that group is present (no children otherwise);
and every group node at path-id `P` lists its points, in order, with ids
`P + "_point_" + index`, followed by its nested groups, in order, with ids
`P + "_group_" + index`. -/
theorem claim_C2 (expS : List String) (m : SunSpecModel) :
    (buildTree expS m).id = "root" ∧
    (buildTree expS m).name = "Model " ++ Nat.repr m.id ∧
    (buildTree expS m).label = m.label ∧
    (buildTree expS m).type = NodeKind.model ∧
    (buildTree expS m).children =
      (match m.group with
       | some g => [groupToNode expS "root_group" 1 g]
       | none => []) ∧
    ((buildTree expS m).children.map TreeNode.id =
      match m.group with
      | some _ => ["root_group"]
      | none => []) ∧
    (∀ (id : String) (lvl : Nat) (g : Group),
      (groupToNode expS id lvl g).children.map TreeNode.id =
        ((List.range g.points.length).map fun i => id ++ "_point_" ++ Nat.repr i) ++
        ((List.range g.groups.length).map fun i => id ++ "_group_" ++ Nat.repr i) ∧
      (groupToNode expS id lvl g).children.map TreeNode.data =
        g.points.map NodeData.point ++ g.groups.map NodeData.group ∧
      (groupToNode expS id lvl g).children.map TreeNode.type =
        List.replicate g.points.length NodeKind.point ++
          List.replicate g.groups.length NodeKind.group) := by
  refine ⟨rfl, rfl, rfl, rfl, rfl, ?_, ?_⟩
  · cases hg : m.group with
    | none => simp [buildTree, hg, TreeNode.children]
    | some g =>
        simp only [buildTree, hg, TreeNode.children, List.map_cons, List.map_nil]
        rw [groupToNode_eq]
        rfl
  · intro id lvl g
    rw [groupToNode_eq]
    simp only [TreeNode.children, List.map_append]
    refine ⟨?_, ?_, ?_⟩
    · rw [pointChildren_map_id, groupChildren_map_id]
      simp
    · rw [pointChildren_map_data, groupChildren_map_data]
    · rw [pointChildren_map_type, groupChildren_map_type]

end SMV

namespace SMV

/-! ## Decimal rendering: `Nat.repr` produces `digitsList` -/

theorem digitsList_low {n : Nat} (h : n < 10) : digitsList n = [Nat.digitChar n] := by
  rw [digitsList, if_pos h]

theorem digitsList_high {n : Nat} (h : ¬n < 10) :
    digitsList n = digitsList (n / 10) ++ [Nat.digitChar (n % 10)] := by
  rw [digitsList]
  exact if_neg h

theorem digitsList_ne_nil (n : Nat) : digitsList n ≠ [] := by
  by_cases h : n < 10
  · rw [digitsList_low h]; simp
  · rw [digitsList_high h]; simp

theorem digitChar_isDigit : ∀ d < 10, (Nat.digitChar d).isDigit = true := by decide

theorem digitChar_inj_lt : ∀ d < 10, ∀ e < 10, Nat.digitChar d = Nat.digitChar e → d = e := by
  decide

theorem digitsList_digits (n : Nat) : ∀ c ∈ digitsList n, c.isDigit = true := by
  induction n using Nat.strong_induction_on with
  | _ n ih =>
      by_cases h : n < 10
      · rw [digitsList_low h]
        intro c hc
        rw [List.mem_singleton] at hc
        subst hc
        exact digitChar_isDigit n h
      · rw [digitsList_high h]
        intro c hc
        rcases List.mem_append.1 hc with hc | hc
        · exact ih (n / 10) (Nat.div_lt_self (by omega) (by omega)) c hc
        · rw [List.mem_singleton] at hc
          subst hc
          exact digitChar_isDigit _ (Nat.mod_lt _ (by omega))

theorem digitsList_inj : ∀ a b : Nat, digitsList a = digitsList b → a = b := by
  intro a
  induction a using Nat.strong_induction_on with
  | _ a ih =>
      intro b h
      by_cases ha : a < 10 <;> by_cases hb : b < 10
      · rw [digitsList_low ha, digitsList_low hb] at h
        exact digitChar_inj_lt a ha b hb (List.singleton_inj.1 h)
      · rw [digitsList_low ha, digitsList_high hb] at h
        have := congrArg List.length h
        have hne := digitsList_ne_nil (b / 10)
        simp [List.length_append] at this
        cases hd : digitsList (b / 10) with
        | nil => exact absurd hd hne
        | cons x xs => rw [hd] at this; simp at this
      · rw [digitsList_high ha, digitsList_low hb] at h
        have := congrArg List.length h
        have hne := digitsList_ne_nil (a / 10)
        simp [List.length_append] at this
        cases hd : digitsList (a / 10) with
        | nil => exact absurd hd hne
        | cons x xs => rw [hd] at this; simp at this
      · rw [digitsList_high ha, digitsList_high hb] at h
        have h2 := List.append_inj' h (by simp)
        have hdiv : a / 10 = b / 10 :=
          ih (a / 10) (Nat.div_lt_self (by omega) (by omega)) (b / 10) h2.1
        have hmod : a % 10 = b % 10 :=
          digitChar_inj_lt _ (Nat.mod_lt _ (by omega)) _ (Nat.mod_lt _ (by omega))
            (List.singleton_inj.1 h2.2)
        omega

theorem toDigitsCore_eq :
    ∀ (fuel n : Nat) (ds : List Char), n < 10 ^ (fuel + 1) →
      Nat.toDigitsCore 10 (fuel + 1) n ds = digitsList n ++ ds := by
  intro fuel
  induction fuel with
  | zero =>
      intro n ds h
      have h10 : n < 10 := by simpa using h
      have hdiv : n / 10 = 0 := Nat.div_eq_of_lt h10
      rw [Nat.toDigitsCore, hdiv]
      simp [digitsList_low h10, Nat.mod_eq_of_lt h10]
  | succ fuel ih =>
      intro n ds h
      rw [Nat.toDigitsCore]
      by_cases hdiv : n / 10 = 0
      · have h10 : n < 10 := by omega
        rw [if_pos hdiv]
        simp [digitsList_low h10, Nat.mod_eq_of_lt h10]
      · have h10 : ¬n < 10 := by omega
        rw [if_neg hdiv]
        have hb : n / 10 < 10 ^ (fuel + 1) := by
          have : n < 10 * 10 ^ (fuel + 1) := by
            rw [← pow_succ']
            exact h
          exact Nat.div_lt_of_lt_mul this
        rw [ih (n / 10) _ hb, digitsList_high h10, List.append_assoc]
        rfl

theorem repr_data (n : Nat) : (Nat.repr n).data = digitsList n := by
  have hpow : n < 10 ^ (n + 1) :=
    lt_of_lt_of_le (Nat.lt_pow_self (by omega) n)
      (Nat.pow_le_pow_right (by omega) (Nat.le_succ n))
  have h2 := toDigitsCore_eq n n [] hpow
  rw [show (Nat.repr n).data = Nat.toDigitsCore 10 (n + 1) n [] from rfl, h2,
    List.append_nil]

end SMV

namespace SMV

/-! ## Structural paths determine ids injectively -/

/-- Splitting a concatenation at a digit-run boundary is unambiguous. -/
theorem digitRun_append_inj :
    ∀ (d1 : List Char) {d2 u1 u2 : List Char},
      d1 ++ u1 = d2 ++ u2 →
      (∀ c ∈ d1, c.isDigit = true) → (∀ c ∈ d2, c.isDigit = true) →
      (∀ c, u1.head? = some c → c.isDigit = false) →
      (∀ c, u2.head? = some c → c.isDigit = false) →
      d1 = d2 ∧ u1 = u2 := by
  intro d1
  induction d1 with
  | nil =>
      intro d2 u1 u2 h _ hd2 hu1 _
      cases d2 with
      | nil => exact ⟨rfl, h⟩
      | cons b d2' =>
          rw [List.nil_append, List.cons_append] at h
          have hb : u1.head? = some b := by rw [h]; rfl
          have := hu1 b hb
          have := hd2 b (List.mem_cons_self _ _)
          simp_all
  | cons a d1' ih =>
      intro d2 u1 u2 h hd1 hd2 hu1 hu2
      cases d2 with
      | nil =>
          rw [List.cons_append, List.nil_append] at h
          have ha : u2.head? = some a := by rw [← h]; rfl
          have := hu2 a ha
          have := hd1 a (List.mem_cons_self _ _)
          simp_all
      | cons b d2' =>
          rw [List.cons_append, List.cons_append] at h
          have hab : a = b := (List.cons.inj h).1
          have htail := (List.cons.inj h).2
          have := ih htail (fun c hc => hd1 c (List.mem_cons_of_mem _ hc))
            (fun c hc => hd2 c (List.mem_cons_of_mem _ hc)) hu1 hu2
          exact ⟨by rw [hab, this.1], this.2⟩

theorem pathStr_nil : pathStr [] = [] := rfl

theorem pathStr_cons (s : Seg) (p : List Seg) :
    pathStr (s :: p) = segStr s ++ pathStr p := by
  simp [pathStr]

theorem segStr_head_underscore (s : Seg) : (segStr s).head? = some '_' := by
  cases s <;> rfl

theorem pathStr_head_not_digit (p : List Seg) :
    ∀ c, (pathStr p).head? = some c → c.isDigit = false := by
  cases p with
  | nil => intro c hc; cases hc
  | cons s rest =>
      intro c hc
      rw [pathStr_cons] at hc
      cases s <;>
        · simp only [segStr, List.cons_append, List.head?_cons] at hc
          rw [← Option.some.inj hc]
          decide

theorem segStr_append_inj {s t : Seg} {u v : List Char}
    (h : segStr s ++ u = segStr t ++ v)
    (hu : ∀ c, u.head? = some c → c.isDigit = false)
    (hv : ∀ c, v.head? = some c → c.isDigit = false) :
    s = t ∧ u = v := by
  cases s with
  | pt i =>
      cases t with
      | pt j =>
          simp only [segStr, List.cons_append, List.cons.injEq, true_and] at h
          have h2 := digitRun_append_inj (digitsList i) h
            (digitsList_digits i) (digitsList_digits j) hu hv
          exact ⟨by rw [digitsList_inj i j h2.1], h2.2⟩
      | gp j =>
          simp only [segStr, List.cons_append, List.cons.injEq] at h
          exact absurd h.2.1 (by decide)
  | gp i =>
      cases t with
      | pt j =>
          simp only [segStr, List.cons_append, List.cons.injEq] at h
          exact absurd h.2.1 (by decide)
      | gp j =>
          simp only [segStr, List.cons_append, List.cons.injEq, true_and] at h
          have h2 := digitRun_append_inj (digitsList i) h
            (digitsList_digits i) (digitsList_digits j) hu hv
          exact ⟨by rw [digitsList_inj i j h2.1], h2.2⟩

theorem segStr_ne_nil (s : Seg) : segStr s ≠ [] := by
  cases s <;> simp [segStr]

theorem pathStr_inj : ∀ p q : List Seg, pathStr p = pathStr q → p = q := by
  intro p
  induction p with
  | nil =>
      intro q h
      cases q with
      | nil => rfl
      | cons t q' =>
          rw [pathStr_nil, pathStr_cons] at h
          exact absurd (List.append_eq_nil.1 h.symm).1 (segStr_ne_nil t)
  | cons s p' ih =>
      intro q h
      cases q with
      | nil =>
          rw [pathStr_nil, pathStr_cons] at h
          exact absurd (List.append_eq_nil.1 h).1 (segStr_ne_nil s)
      | cons t q' =>
          rw [pathStr_cons, pathStr_cons] at h
          have h2 := segStr_append_inj h (pathStr_head_not_digit p')
            (pathStr_head_not_digit q')
          rw [h2.1, ih q' h2.2]

theorem idOfPath_inj (base : String) : Function.Injective (idOfPath base) := by
  intro p q h
  have hd : base.data ++ pathStr p = base.data ++ pathStr q := congrArg String.data h
  exact pathStr_inj p q (List.append_cancel_left hd)

theorem idOfPath_nil (base : String) : idOfPath base [] = base :=
  strExt (by simp [idOfPath, pathStr_nil])

theorem idOfPath_seg_pt (base : String) (i : Nat) :
    base ++ "_point_" ++ Nat.repr i = idOfPath base [Seg.pt i] := by
  refine strExt ?_
  rw [String.data_append, String.data_append]
  simp only [idOfPath, pathStr_cons, pathStr_nil, List.append_nil, segStr,
    List.append_assoc]
  rw [repr_data]
  rfl

theorem idOfPath_seg_gp (base : String) (i : Nat) (p : List Seg) :
    idOfPath (base ++ "_group_" ++ Nat.repr i) p = idOfPath base (Seg.gp i :: p) := by
  refine strExt ?_
  simp only [idOfPath, pathStr_cons, segStr]
  rw [String.data_append, String.data_append, repr_data]
  simp [List.append_assoc]

end SMV

namespace SMV

/-! ## Node lists of built trees -/

theorem allNodesList_append (a b : List TreeNode) :
    allNodesList (a ++ b) = allNodesList a ++ allNodesList b := by
  induction a with
  | nil => rfl
  | cons c cs ih => rw [List.cons_append, allNodesList, allNodesList, ih, List.append_assoc]

theorem allNodes_pointToNode (expS : List String) (id : String) (lvl : Nat) (p : Point) :
    allNodes (pointToNode expS id lvl p) = [pointToNode expS id lvl p] := rfl

theorem allNodes_groupToNode (expS : List String) (id : String) (lvl : Nat) (g : Group) :
    allNodes (groupToNode expS id lvl g) =
      groupToNode expS id lvl g ::
        allNodesList (pointChildren expS id (lvl + 1) 0 g.points ++
          groupChildren expS id (lvl + 1) 0 g.groups) := by
  cases g; rfl

theorem allNodesList_pointChildren (expS : List String) (id : String) (lvl : Nat) :
    ∀ (pts : List Point) (i : Nat),
      allNodesList (pointChildren expS id lvl i pts) = pointChildren expS id lvl i pts := by
  intro pts
  induction pts with
  | nil => intro i; rfl
  | cons p ps ih =>
      intro i
      rw [pointChildren, allNodesList, allNodes_pointToNode, ih (i + 1)]
      rfl

theorem pointChildren_map_id_paths (expS : List String) (id : String) (lvl : Nat) :
    ∀ (pts : List Point) (i : Nat),
      (pointChildren expS id lvl i pts).map TreeNode.id =
        (ptPaths i pts).map (idOfPath id) := by
  intro pts
  induction pts with
  | nil => intro i; rfl
  | cons p ps ih =>
      intro i
      rw [pointChildren, ptPaths, List.map_cons, List.map_cons, ih (i + 1)]
      refine congrArg₂ List.cons ?_ rfl
      rw [← idOfPath_seg_pt]
      rfl

theorem groupChildren_ids_paths (expS : List String) (lvl : Nat) :
    ∀ (gs : List Group) (id : String) (i : Nat),
      (∀ g ∈ gs, ∀ (id' : String) (lvl' : Nat),
        (allNodes (groupToNode expS id' lvl' g)).map TreeNode.id =
          (gpaths g).map (idOfPath id')) →
      (allNodesList (groupChildren expS id lvl i gs)).map TreeNode.id =
        (gpathsList i gs).map (idOfPath id) := by
  intro gs
  induction gs with
  | nil => intro id i _; rfl
  | cons g gs ih =>
      intro id i hmem
      rw [groupChildren, allNodesList, gpathsList, List.map_append, List.map_append]
      have h1 := hmem g (List.mem_cons_self _ _) (id ++ "_group_" ++ Nat.repr i) lvl
      have h2 := ih id (i + 1) (fun g' hg' => hmem g' (List.mem_cons_of_mem _ hg'))
      refine congrArg₂ List.append ?_ h2
      rw [h1, List.map_map]
      refine congrArg₂ List.map (funext fun p => ?_) rfl
      simp only [Function.comp]
      exact idOfPath_seg_gp id i p

theorem groupToNode_ids_paths (expS : List String) :
    ∀ (g : Group) (id : String) (lvl : Nat),
      (allNodes (groupToNode expS id lvl g)).map TreeNode.id =
        (gpaths g).map (idOfPath id) := by
  intro g
  induction g using Group.memInduction with
  | h name label desc pts gs ih =>
      intro id lvl
      rw [allNodes_groupToNode, gpaths, List.map_cons, List.map_cons,
        allNodesList_append, List.map_append, List.map_append]
      refine congrArg₂ List.cons ?_ (congrArg₂ List.append ?_ ?_)
      · rw [idOfPath_nil, groupToNode_eq]; rfl
      · show (allNodesList (pointChildren expS id (lvl + 1) 0 (Group.mk name label desc pts gs).points)).map TreeNode.id = _
        rw [allNodesList_pointChildren, pointChildren_map_id_paths]
        rfl
      · exact groupChildren_ids_paths expS (lvl + 1) gs id 0 ih

end SMV

namespace SMV

/-! ## Path lists are duplicate-free -/

theorem mem_ptPaths {q : List Seg} :
    ∀ {pts : List Point} {i : Nat}, q ∈ ptPaths i pts → ∃ k, q = [Seg.pt (i + k)] := by
  intro pts
  induction pts with
  | nil => intro i h; simp [ptPaths] at h
  | cons p ps ih =>
      intro i h
      rw [ptPaths] at h
      rcases List.mem_cons.1 h with h | h
      · exact ⟨0, h⟩
      · rcases ih h with ⟨k, hk⟩
        exact ⟨k + 1, by rw [hk]; congr 2; omega⟩

theorem mem_gpathsList {q : List Seg} :
    ∀ {gs : List Group} {i : Nat}, q ∈ gpathsList i gs →
      ∃ j p, q = Seg.gp j :: p ∧ i ≤ j := by
  intro gs
  induction gs with
  | nil => intro i h; simp [gpathsList] at h
  | cons g gs ih =>
      intro i h
      rw [gpathsList] at h
      rcases List.mem_append.1 h with h | h
      · rcases List.mem_map.1 h with ⟨p, _, hp⟩
        exact ⟨i, p, hp.symm, le_refl i⟩
      · rcases ih h with ⟨j, p, hq, hij⟩
        exact ⟨j, p, hq, by omega⟩

theorem nodup_ptPaths : ∀ (pts : List Point) (i : Nat), (ptPaths i pts).Nodup := by
  intro pts
  induction pts with
  | nil => intro i; simp [ptPaths]
  | cons p ps ih =>
      intro i
      rw [ptPaths]
      refine List.nodup_cons.2 ⟨?_, ih (i + 1)⟩
      intro hmem
      rcases mem_ptPaths hmem with ⟨k, hk⟩
      have : Seg.pt i = Seg.pt (i + 1 + k) := (List.cons.inj hk).1
      have : i = i + 1 + k := Seg.pt.inj this
      omega

theorem nodup_gpathsList :
    ∀ (gs : List Group) (i : Nat), (∀ g ∈ gs, (gpaths g).Nodup) →
      (gpathsList i gs).Nodup := by
  intro gs
  induction gs with
  | nil => intro i _; simp [gpathsList]
  | cons g gs ih =>
      intro i hmem
      rw [gpathsList]
      refine List.Nodup.append ?_ (ih (i + 1) fun g' hg' => hmem g' (List.mem_cons_of_mem _ hg')) ?_
      · exact (hmem g (List.mem_cons_self _ _)).map
          (fun p q h => (List.cons.inj h).2)
      · intro q hq1 hq2
        rcases List.mem_map.1 hq1 with ⟨p, _, hp⟩
        rcases mem_gpathsList hq2 with ⟨j, p', hq', hij⟩
        rw [← hp] at hq'
        have : Seg.gp i = Seg.gp j := (List.cons.inj hq').1
        have : i = j := Seg.gp.inj this
        omega

theorem nodup_gpaths : ∀ g : Group, (gpaths g).Nodup := by
  intro g
  induction g using Group.memInduction with
  | h name label desc pts gs ih =>
      rw [gpaths]
      refine List.nodup_cons.2 ⟨?_, ?_⟩
      · intro hmem
        rcases List.mem_append.1 hmem with h | h
        · rcases mem_ptPaths h with ⟨k, hk⟩
          cases hk
        · rcases mem_gpathsList h with ⟨j, p, hq, _⟩
          cases hq
      · refine List.Nodup.append (nodup_ptPaths pts 0) (nodup_gpathsList gs 0 ih) ?_
        intro q hq1 hq2
        rcases mem_ptPaths hq1 with ⟨k, hk⟩
        rcases mem_gpathsList hq2 with ⟨j, p, hq', _⟩
        rw [hk] at hq'
        exact absurd (List.cons.inj hq').1 (by simp)

/-! ## Collectors of built trees -/

theorem pointDataOf_pointToNode (expS : List String) (id : String) (lvl : Nat) (p : Point) :
    pointDataOf (pointToNode expS id lvl p) = some p := rfl

theorem filterMap_pointDataOf_pointChildren (expS : List String) (id : String) (lvl : Nat) :
    ∀ (pts : List Point) (i : Nat),
      (pointChildren expS id lvl i pts).filterMap pointDataOf = pts := by
  intro pts
  induction pts with
  | nil => intro i; rfl
  | cons p ps ih =>
      intro i
      rw [pointChildren, List.filterMap_cons, pointDataOf_pointToNode, ih (i + 1)]

theorem filterMap_groupDataOf_pointChildren (expS : List String) (id : String) (lvl : Nat) :
    ∀ (pts : List Point) (i : Nat),
      (pointChildren expS id lvl i pts).filterMap groupDataOf = [] := by
  intro pts
  induction pts with
  | nil => intro i; rfl
  | cons p ps ih =>
      intro i
      rw [pointChildren, List.filterMap_cons]
      exact ih (i + 1)

theorem treePoints_groupChildren (expS : List String) (lvl : Nat) :
    ∀ (gs : List Group) (id : String) (i : Nat),
      (∀ g ∈ gs, ∀ (id' : String) (lvl' : Nat),
        treePoints (groupToNode expS id' lvl' g) = reachPoints g) →
      (allNodesList (groupChildren expS id lvl i gs)).filterMap pointDataOf =
        reachPointsList gs := by
  intro gs
  induction gs with
  | nil => intro id i _; rfl
  | cons g gs ih =>
      intro id i hmem
      rw [groupChildren, allNodesList, reachPointsList, List.filterMap_append]
      exact congrArg₂ List.append
        (hmem g (List.mem_cons_self _ _) _ lvl)
        (ih id (i + 1) fun g' hg' => hmem g' (List.mem_cons_of_mem _ hg'))

theorem treePoints_groupToNode (expS : List String) :
    ∀ (g : Group) (id : String) (lvl : Nat),
      treePoints (groupToNode expS id lvl g) = reachPoints g := by
  intro g
  induction g using Group.memInduction with
  | h name label desc pts gs ih =>
      intro id lvl
      rw [treePoints, allNodes_groupToNode, List.filterMap_cons]
      have hself : pointDataOf (groupToNode expS id lvl (Group.mk name label desc pts gs)) = none := by
        rw [groupToNode_eq]; rfl
      rw [groupToNode_eq] at hself ⊢
      simp only [allNodesList_append, List.filterMap_append]
      rw [show (Group.mk name label desc pts gs).points = pts from rfl,
        show (Group.mk name label desc pts gs).groups = gs from rfl,
        allNodesList_pointChildren, filterMap_pointDataOf_pointChildren]
      rw [treePoints_groupChildren expS (lvl + 1) gs id 0
        (fun g' hg' id' lvl' => ih g' hg' id' lvl')]
      rw [reachPoints]
      rw [show pointDataOf (TreeNode.mk id (Group.mk name label desc pts gs).name
        (Group.mk name label desc pts gs).labelOf NodeKind.group
        (expS.contains id) (pointChildren expS id (lvl + 1) 0 pts ++
          groupChildren expS id (lvl + 1) 0 gs)
        (NodeData.group (Group.mk name label desc pts gs)) lvl) = none from rfl]

theorem treeGroups_groupChildren (expS : List String) (lvl : Nat) :
    ∀ (gs : List Group) (id : String) (i : Nat),
      (∀ g ∈ gs, ∀ (id' : String) (lvl' : Nat),
        treeGroups (groupToNode expS id' lvl' g) = reachGroups g) →
      (allNodesList (groupChildren expS id lvl i gs)).filterMap groupDataOf =
        reachGroupsList gs := by
  intro gs
  induction gs with
  | nil => intro id i _; rfl
  | cons g gs ih =>
      intro id i hmem
      rw [groupChildren, allNodesList, reachGroupsList, List.filterMap_append]
      exact congrArg₂ List.append
        (hmem g (List.mem_cons_self _ _) _ lvl)
        (ih id (i + 1) fun g' hg' => hmem g' (List.mem_cons_of_mem _ hg'))

theorem treeGroups_groupToNode (expS : List String) :
    ∀ (g : Group) (id : String) (lvl : Nat),
      treeGroups (groupToNode expS id lvl g) = reachGroups g := by
  intro g
  induction g using Group.memInduction with
  | h name label desc pts gs ih =>
      intro id lvl
      rw [treeGroups, allNodes_groupToNode, List.filterMap_cons]
      rw [groupToNode_eq]
      simp only [allNodesList_append, List.filterMap_append]
      rw [show (Group.mk name label desc pts gs).points = pts from rfl,
        show (Group.mk name label desc pts gs).groups = gs from rfl,
        allNodesList_pointChildren, filterMap_groupDataOf_pointChildren]
      rw [treeGroups_groupChildren expS (lvl + 1) gs id 0
        (fun g' hg' id' lvl' => ih g' hg' id' lvl')]
      rw [reachGroups]
      rfl

end SMV

namespace SMV

/-! ## Expansion state only affects `isExpanded` flags -/

theorem eraseExpList_append (a b : List TreeNode) :
    eraseExpList (a ++ b) = eraseExpList a ++ eraseExpList b := by
  induction a with
  | nil => rfl
  | cons c cs ih => rw [List.cons_append, eraseExpList, eraseExpList, ih]; rfl

theorem eraseExpList_pointChildren (s1 s2 : List String) (id : String) (lvl : Nat) :
    ∀ (pts : List Point) (i : Nat),
      eraseExpList (pointChildren s1 id lvl i pts) =
        eraseExpList (pointChildren s2 id lvl i pts) := by
  intro pts
  induction pts with
  | nil => intro i; rfl
  | cons p ps ih =>
      intro i
      rw [pointChildren, pointChildren, eraseExpList, eraseExpList, ih (i + 1)]
      rfl

theorem eraseExpList_groupChildren (s1 s2 : List String) (lvl : Nat) :
    ∀ (gs : List Group) (id : String) (i : Nat),
      (∀ g ∈ gs, ∀ (id' : String) (lvl' : Nat),
        eraseExp (groupToNode s1 id' lvl' g) = eraseExp (groupToNode s2 id' lvl' g)) →
      eraseExpList (groupChildren s1 id lvl i gs) =
        eraseExpList (groupChildren s2 id lvl i gs) := by
  intro gs
  induction gs with
  | nil => intro id i _; rfl
  | cons g gs ih =>
      intro id i hmem
      rw [groupChildren, groupChildren, eraseExpList, eraseExpList,
        hmem g (List.mem_cons_self _ _) _ lvl,
        ih id (i + 1) fun g' hg' => hmem g' (List.mem_cons_of_mem _ hg')]

theorem eraseExp_groupToNode (s1 s2 : List String) :
    ∀ (g : Group) (id : String) (lvl : Nat),
      eraseExp (groupToNode s1 id lvl g) = eraseExp (groupToNode s2 id lvl g) := by
  intro g
  induction g using Group.memInduction with
  | h name label desc pts gs ih =>
      intro id lvl
      rw [groupToNode_eq, groupToNode_eq, eraseExp, eraseExp,
        show (Group.mk name label desc pts gs).points = pts from rfl,
        show (Group.mk name label desc pts gs).groups = gs from rfl,
        eraseExpList_append, eraseExpList_append,
        eraseExpList_pointChildren s1 s2,
        eraseExpList_groupChildren s1 s2 (lvl + 1) gs id 0
          (fun g' hg' id' lvl' => ih g' hg' id' lvl')]

theorem isExpanded_pointChildren (expS : List String) (id : String) (lvl : Nat) :
    ∀ (pts : List Point) (i : Nat),
      ∀ nd ∈ allNodesList (pointChildren expS id lvl i pts),
        nd.isExpanded = expS.contains nd.id := by
  intro pts
  induction pts with
  | nil => intro i nd h; simp [allNodesList] at h
  | cons p ps ih =>
      intro i nd h
      rw [pointChildren, allNodesList, allNodes_pointToNode] at h
      rcases List.mem_append.1 h with h | h
      · rw [List.mem_singleton] at h
        subst h
        rfl
      · exact ih (i + 1) nd h

theorem isExpanded_groupChildren (expS : List String) (lvl : Nat) :
    ∀ (gs : List Group) (id : String) (i : Nat),
      (∀ g ∈ gs, ∀ (id' : String) (lvl' : Nat),
        ∀ nd ∈ allNodes (groupToNode expS id' lvl' g),
          nd.isExpanded = expS.contains nd.id) →
      ∀ nd ∈ allNodesList (groupChildren expS id lvl i gs),
        nd.isExpanded = expS.contains nd.id := by
  intro gs
  induction gs with
  | nil => intro id i _ nd h; simp [allNodesList] at h
  | cons g gs ih =>
      intro id i hmem nd h
      rw [groupChildren, allNodesList] at h
      rcases List.mem_append.1 h with h | h
      · exact hmem g (List.mem_cons_self _ _) _ lvl nd h
      · exact ih id (i + 1) (fun g' hg' => hmem g' (List.mem_cons_of_mem _ hg')) nd h

theorem isExpanded_groupToNode (expS : List String) :
    ∀ (g : Group) (id : String) (lvl : Nat),
      ∀ nd ∈ allNodes (groupToNode expS id lvl g),
        nd.isExpanded = expS.contains nd.id := by
  intro g
  induction g using Group.memInduction with
  | h name label desc pts gs ih =>
      intro id lvl nd h
      rw [allNodes_groupToNode] at h
      rcases List.mem_cons.1 h with h | h
      · subst h
        rw [groupToNode_eq]
        rfl
      · rw [show (Group.mk name label desc pts gs).points = pts from rfl,
          show (Group.mk name label desc pts gs).groups = gs from rfl,
          allNodesList_append] at h
        rcases List.mem_append.1 h with h | h
        · exact isExpanded_pointChildren expS id (lvl + 1) pts 0 nd h
        · exact isExpanded_groupChildren expS (lvl + 1) gs id 0
            (fun g' hg' id' lvl' => ih g' hg' id' lvl') nd h

/-! ## Tree-level id list -/

theorem idOfPath_rootGroup_ne_root (p : List Seg) : idOfPath "root_group" p ≠ "root" := by
  intro h
  have hd : "root_group".data ++ pathStr p = "root".data := congrArg String.data h
  have hlen : ("root_group".data ++ pathStr p).length = ("root".data).length := by rw [hd]
  rw [List.length_append, show ("root_group".data).length = 10 from rfl,
    show ("root".data).length = 4 from rfl] at hlen
  omega

theorem allNodes_buildTree (expS : List String) (m : SunSpecModel) :
    allNodes (buildTree expS m) =
      buildTree expS m ::
        (match m.group with
         | some g => allNodes (groupToNode expS "root_group" 1 g)
         | none => []) := by
  cases hg : m.group with
  | none => simp [buildTree, hg, allNodes, allNodesList]
  | some g =>
      simp only [buildTree, hg, allNodes, allNodesList]
      rw [List.append_nil]

theorem allIds_buildTree (expS : List String) (m : SunSpecModel) :
    allIds (buildTree expS m) = modelIds m := by
  rw [allIds, allNodes_buildTree, List.map_cons, modelIds]
  refine congrArg₂ List.cons rfl ?_
  cases hg : m.group with
  | none => rfl
  | some g => exact groupToNode_ids_paths expS g "root_group" 1

/-! ## Claim C4 (confirmed) -/

/-- C4: rebuilding the tree under a different expansion state changes nothing
but the `isExpanded` flags (the expansion-erased trees are equal); a node's
flag is exactly membership of its id in the given state; and the id list is a
function of the model's structural paths alone, independent of the state. -/
theorem claim_C4 (m : SunSpecModel) (s1 s2 : List String) :
    eraseExp (buildTree s1 m) = eraseExp (buildTree s2 m) ∧
    (∀ nd ∈ allNodes (buildTree s1 m), nd.isExpanded = s1.contains nd.id) ∧
    allIds (buildTree s1 m) = modelIds m := by
  refine ⟨?_, ?_, allIds_buildTree s1 m⟩
  · cases hg : m.group with
    | none => simp [buildTree, hg, eraseExp, eraseExpList]
    | some g =>
        simp only [buildTree, hg, eraseExp, eraseExpList]
        rw [eraseExp_groupToNode s1 s2]
  · intro nd h
    rw [allNodes_buildTree] at h
    rcases List.mem_cons.1 h with h | h
    · subst h
      rfl
    · cases hg : m.group with
      | none => rw [hg] at h; cases h
      | some g =>
          rw [hg] at h
          exact isExpanded_groupToNode s1 g "root_group" 1 nd h

/-! ## Claim C3 (confirmed) -/

/-- C3: the built tree carries exactly one point node per reachable Point and
one group node per reachable Group — their payloads, collected in preorder,
are precisely the reachable points and groups, in order — and all node ids of
the tree are pairwise distinct. -/
theorem claim_C3 (expS : List String) (m : SunSpecModel) :
    treePoints (buildTree expS m) = modelPoints m ∧
    treeGroups (buildTree expS m) = modelGroups m ∧
    (allIds (buildTree expS m)).Nodup := by
  refine ⟨?_, ?_, ?_⟩
  · rw [treePoints, allNodes_buildTree, List.filterMap_cons, modelPoints]
    rw [show pointDataOf (buildTree expS m) = none from by rw [buildTree]; rfl]
    cases hg : m.group with
    | none => rfl
    | some g => exact treePoints_groupToNode expS g "root_group" 1
  · rw [treeGroups, allNodes_buildTree, List.filterMap_cons, modelGroups]
    rw [show groupDataOf (buildTree expS m) = none from by rw [buildTree]; rfl]
    cases hg : m.group with
    | none => rfl
    | some g => exact treeGroups_groupToNode expS g "root_group" 1
  · rw [allIds_buildTree, modelIds]
    refine List.nodup_cons.2 ⟨?_, ?_⟩
    · cases hg : m.group with
      | none => simp
      | some g =>
          intro hmem
          rcases List.mem_map.1 hmem with ⟨p, _, hp⟩
          exact idOfPath_rootGroup_ne_root p hp
    · cases hg : m.group with
      | none => simp
      | some g => exact (nodup_gpaths g).map (idOfPath_inj "root_group")

end SMV

namespace SMV

/-! ## The catalog sort is a stable ascending-id sort -/

theorem getAllModelsWithMetadata_eq (files : List GitHubFile)
    (fetch : String → Option RawDoc) :
    getAllModelsWithMetadata files fetch =
      sortById (files.filterMap fun f => (fetch f.name).map (toModelInfo f.name)) := by
  simp only [getAllModelsWithMetadata]
  congr 1
  rw [List.filterMap_map]
  refine congrArg₂ List.filterMap (funext fun f => ?_) rfl
  simp only [Function.comp]
  cases h : fetch f.name <;> simp [h]

theorem catInsert_perm (x : ModelInfo) (l : List ModelInfo) :
    List.Perm (catInsert x l) (x :: l) := by
  induction l with
  | nil => exact List.Perm.refl _
  | cons y ys ih =>
      rw [catInsert]
      by_cases h : y.id ≤ x.id
      · rw [if_pos h]
        exact List.Perm.trans (List.Perm.cons y ih) (List.Perm.swap x y ys)
      · rw [if_neg h]

theorem sortAux_perm :
    ∀ (l acc : List ModelInfo),
      List.Perm (l.foldl (fun a x => catInsert x a) acc) (acc ++ l) := by
  intro l
  induction l with
  | nil => intro acc; rw [List.foldl_nil, List.append_nil]
  | cons x l ih =>
      intro acc
      rw [List.foldl_cons]
      refine List.Perm.trans (ih (catInsert x acc)) ?_
      refine List.Perm.trans (List.Perm.append_right l (catInsert_perm x acc)) ?_
      exact List.perm_middle.symm

theorem sortById_perm (l : List ModelInfo) : List.Perm (sortById l) l :=
  by simpa using sortAux_perm l []

theorem catInsert_sorted {x : ModelInfo} {l : List ModelInfo}
    (h : l.Pairwise (fun a b => a.id ≤ b.id)) :
    (catInsert x l).Pairwise (fun a b => a.id ≤ b.id) := by
  induction l with
  | nil => simp [catInsert]
  | cons y ys ih =>
      rw [List.pairwise_cons] at h
      rw [catInsert]
      by_cases hyx : y.id ≤ x.id
      · rw [if_pos hyx]
        refine List.pairwise_cons.2 ⟨?_, ih h.2⟩
        intro b hb
        have hb' : b ∈ x :: ys := (catInsert_perm x ys).mem_iff.1 hb
        rcases List.mem_cons.1 hb' with hb' | hb'
        · rw [hb']; exact hyx
        · exact h.1 b hb'
      · rw [if_neg hyx]
        refine List.pairwise_cons.2 ⟨?_, List.pairwise_cons.2 h⟩
        intro b hb
        rcases List.mem_cons.1 hb with hb | hb
        · rw [hb]; omega
        · have := h.1 b hb; omega

theorem sortAux_sorted :
    ∀ (l acc : List ModelInfo), acc.Pairwise (fun a b => a.id ≤ b.id) →
      (l.foldl (fun a x => catInsert x a) acc).Pairwise (fun a b => a.id ≤ b.id) := by
  intro l
  induction l with
  | nil => intro acc h; rw [List.foldl_nil]; exact h
  | cons x l ih =>
      intro acc h
      rw [List.foldl_cons]
      exact ih (catInsert x acc) (catInsert_sorted h)

theorem sortById_sorted (l : List ModelInfo) :
    (sortById l).Pairwise (fun a b => a.id ≤ b.id) :=
  sortAux_sorted l [] (List.Pairwise.nil)

theorem catInsert_filter (k : Nat) {x : ModelInfo} {l : List ModelInfo}
    (h : l.Pairwise (fun a b => a.id ≤ b.id)) :
    (catInsert x l).filter (fun m => m.id == k) =
      if x.id = k then l.filter (fun m => m.id == k) ++ [x]
      else l.filter (fun m => m.id == k) := by
  induction l with
  | nil =>
      by_cases hx : x.id = k
      · rw [if_pos hx]
        simp [catInsert, List.filter_cons, hx]
      · rw [if_neg hx]
        simp [catInsert, List.filter_cons, hx]
  | cons y ys ih =>
      rw [List.pairwise_cons] at h
      rw [catInsert]
      by_cases hyx : y.id ≤ x.id
      · rw [if_pos hyx, List.filter_cons, List.filter_cons, ih h.2]
        by_cases hy : y.id = k
        · by_cases hx : x.id = k <;>
            simp [hy, hx]
        · by_cases hx : x.id = k <;>
            simp [hy, hx]
      · rw [if_neg hyx]
        have hys : ∀ b ∈ y :: ys, k < b.id ∨ x.id ≠ k := by
          intro b hb
          by_cases hx : x.id = k
          · left
            rcases List.mem_cons.1 hb with hb | hb
            · subst hb; omega
            · have := h.1 b hb; omega
          · right; exact hx
        by_cases hx : x.id = k
        · rw [if_pos hx]
          have hnil : (y :: ys).filter (fun m => m.id == k) = [] := by
            rw [List.filter_eq_nil_iff]
            intro b hb
            rcases hys b hb with hlt | hne
            · simp only [beq_iff_eq]; omega
            · exact absurd hx hne
          rw [List.filter_cons, hnil]
          simp [hx]
        · rw [if_neg hx, List.filter_cons]
          simp [hx]

theorem sortAux_filter (k : Nat) :
    ∀ (l acc : List ModelInfo), acc.Pairwise (fun a b => a.id ≤ b.id) →
      (l.foldl (fun a x => catInsert x a) acc).filter (fun m => m.id == k) =
        acc.filter (fun m => m.id == k) ++ l.filter (fun m => m.id == k) := by
  intro l
  induction l with
  | nil => intro acc _; rw [List.foldl_nil, List.filter_nil, List.append_nil]
  | cons x l ih =>
      intro acc h
      rw [List.foldl_cons, ih (catInsert x acc) (catInsert_sorted h),
        catInsert_filter k h, List.filter_cons]
      by_cases hx : x.id = k
      · rw [if_pos hx]
        simp [hx, List.append_assoc]
      · rw [if_neg hx]
        simp [hx]

theorem sortById_stable (k : Nat) (l : List ModelInfo) :
    (sortById l).filter (fun m => m.id == k) = l.filter (fun m => m.id == k) := by
  have := sortAux_filter k l [] (List.Pairwise.nil)
  simpa [sortById] using this

/-! ## Claim C5 (confirmed): concrete sample data -/

def d50 : ModelInfo := ⟨50, "a", none, none, "a"⟩
def d2a : ModelInfo := ⟨2, "b", none, none, "b"⟩
def d2b : ModelInfo := ⟨2, "c", none, none, "c"⟩
def d10 : ModelInfo := ⟨10, "d", none, none, "d"⟩

/-- Five listing entries; the fetch of the third fails. -/
def exFiles : List GitHubFile :=
  [⟨"model_64.json", "json/model_64.json", "u1"⟩,
   ⟨"model_1.json", "json/model_1.json", "u2"⟩,
   ⟨"model_103.json", "json/model_103.json", "u3"⟩,
   ⟨"model_17.json", "json/model_17.json", "u4"⟩,
   ⟨"model_2.json", "json/model_2.json", "u5"⟩]

def exFetch : String → Option RawDoc := fun n =>
  if n == "model_103.json" then none else some ⟨none, none, none, none⟩

/-- C5: the catalog result is a permutation of exactly the successful entries
(in particular a per-item failure only removes that item and the operation
still returns), it is sorted by ascending id, and it is stable: the entries of
any fixed id appear exactly as they do in listing order.  Concretely, ids
[50, 2, 2, 10] sort to [2, 2, 10, 50] with the two id-2 entries in original
order, and with one of five fetches failing the other four come back
sorted. -/
theorem claim_C5 (files : List GitHubFile) (fetch : String → Option RawDoc) :
    List.Perm (getAllModelsWithMetadata files fetch)
      (files.filterMap fun f => (fetch f.name).map (toModelInfo f.name)) ∧
    (getAllModelsWithMetadata files fetch).Pairwise (fun a b => a.id ≤ b.id) ∧
    (∀ k : Nat,
      (getAllModelsWithMetadata files fetch).filter (fun m => m.id == k) =
        (files.filterMap fun f => (fetch f.name).map (toModelInfo f.name)).filter
          (fun m => m.id == k)) ∧
    sortById [d50, d2a, d2b, d10] = [d2a, d2b, d10, d50] ∧
    getAllModelsWithMetadata exFiles exFetch =
      [⟨1, "model_1", none, none, "model_1.json"⟩,
       ⟨2, "model_2", none, none, "model_2.json"⟩,
       ⟨17, "model_17", none, none, "model_17.json"⟩,
       ⟨64, "model_64", none, none, "model_64.json"⟩] := by
  refine ⟨?_, ?_, ?_, by decide, by decide⟩
  · rw [getAllModelsWithMetadata_eq]
    exact sortById_perm _
  · rw [getAllModelsWithMetadata_eq]
    exact sortById_sorted _
  · intro k
    rw [getAllModelsWithMetadata_eq]
    exact sortById_stable k _

end SMV

namespace SMV

/-- C4 witness: the flags and erased shape evaluated at the sample model, for
the root node and the states `["root"]` and `[]`. -/
theorem claim_C4_witness :
    eraseExp (buildTree ["root"] sampleModel) = eraseExp (buildTree [] sampleModel) ∧
    (buildTree ["root"] sampleModel).isExpanded =
      (["root"] : List String).contains (buildTree ["root"] sampleModel).id :=
  ⟨(claim_C4 sampleModel ["root"] []).1,
   (claim_C4 sampleModel ["root"] []).2.1 (buildTree ["root"] sampleModel)
     (by rw [allNodes_buildTree]; exact List.mem_cons_self _ _)⟩

/-! ## Claim C6 (confirmed) -/

theorem bucketKey_mem_table (id : Nat) : ∃ d, (bucketKey id, d) ∈ categoryTable := by
  simp only [bucketKey]
  split_ifs
  · exact ⟨"Common & Basic Models", by decide⟩
  · exact ⟨"Inverter Models", by decide⟩
  · exact ⟨"Meter Models", by decide⟩
  · exact ⟨"Environmental Models", by decide⟩
  · exact ⟨"String Combiner Models", by decide⟩
  · exact ⟨"Panel Models", by decide⟩
  · exact ⟨"Tracker Models", by decide⟩
  · exact ⟨"DER Control Models", by decide⟩
  · exact ⟨"Storage Models", by decide⟩
  · exact ⟨"Extended & Custom Models", by decide⟩

/-- C6: every descriptor lands in exactly one bucket of the fixed table
(decided by `bucketKey`, which always names a table key); empty buckets are
dropped; the retained keys keep the fixed table order (they form a sublist of
the table's keys); a retained bucket holds exactly the input's members of its
key, in input order, and is non-empty; and the boundary ids fall as the table
prescribes, with everything from 900 up in "900+". -/
theorem claim_C6 (models : List ModelInfo) :
    ((categorizeModels models).map Prod.fst).Sublist (categoryTable.map Prod.fst) ∧
    (∀ (k : String) (c : Category), (k, c) ∈ categorizeModels models →
      c.range = k ∧ c.models = models.filter (fun m => bucketKey m.id == k) ∧
        c.models ≠ []) ∧
    (∀ kd ∈ categoryTable, models.filter (fun m => bucketKey m.id == kd.1) ≠ [] →
      ∃ c, (kd.1, c) ∈ categorizeModels models) ∧
    (∀ id : Nat, ∃ d, (bucketKey id, d) ∈ categoryTable) ∧
    (∀ m ∈ models, ∃ c, (bucketKey m.id, c) ∈ categorizeModels models ∧
      m ∈ c.models ∧
      ∀ (k' : String) (c' : Category), (k', c') ∈ categorizeModels models →
        m ∈ c'.models → k' = bucketKey m.id) ∧
    (bucketKey 0 = "1-99" ∧ bucketKey 99 = "1-99" ∧ bucketKey 100 = "100-199" ∧
      bucketKey 899 = "800-899" ∧ bucketKey 900 = "900+") ∧
    (∀ n : Nat, 900 ≤ n → bucketKey n = "900+") := by
  have hmem : ∀ (k : String) (c : Category), (k, c) ∈ categorizeModels models →
      c.range = k ∧ c.models = models.filter (fun m => bucketKey m.id == k) ∧
        c.models ≠ [] := by
    intro k c h
    rw [categorizeModels] at h
    have h1 := List.mem_filter.1 h
    rcases List.mem_map.1 h1.1 with ⟨kd, _, hkd⟩
    have hk : kd.1 = k := congrArg Prod.fst hkd
    have hc : c = { range := kd.1, description := kd.2
                    models := models.filter fun m => bucketKey m.id == kd.1 } :=
      (congrArg Prod.snd hkd).symm
    have hne : c.models ≠ [] := by
      intro hnil
      have := h1.2
      rw [hnil] at this
      simp at this
    exact ⟨by rw [hc, hk], by rw [hc, hk], hne⟩
  refine ⟨?_, hmem, ?_, bucketKey_mem_table, ?_, by decide, ?_⟩
  · rw [categorizeModels]
    have hs : ((categoryTable.map fun kd =>
        (kd.1, { range := kd.1, description := kd.2
                 models := models.filter fun m => bucketKey m.id == kd.1 : Category }))
        |>.filter fun kc => !kc.2.models.isEmpty).Sublist
        (categoryTable.map fun kd =>
          (kd.1, { range := kd.1, description := kd.2
                   models := models.filter fun m => bucketKey m.id == kd.1 : Category })) :=
      List.filter_sublist _
    have := hs.map Prod.fst
    rwa [List.map_map, show (Prod.fst ∘ fun kd : String × String =>
      (kd.1, { range := kd.1, description := kd.2
               models := models.filter fun m => bucketKey m.id == kd.1 : Category })) =
      Prod.fst from funext fun kd => rfl] at this
  · intro kd hkd hne
    refine ⟨{ range := kd.1, description := kd.2
              models := models.filter fun m => bucketKey m.id == kd.1 }, ?_⟩
    rw [categorizeModels]
    refine List.mem_filter.2 ⟨List.mem_map.2 ⟨kd, hkd, rfl⟩, ?_⟩
    have hf : (models.filter fun m => bucketKey m.id == kd.1).isEmpty = false := by
      cases hh : (models.filter fun m => bucketKey m.id == kd.1).isEmpty
      · rfl
      · exact absurd (List.isEmpty_iff.1 hh) hne
    simp [hf]
  · intro m hm
    rcases bucketKey_mem_table m.id with ⟨d, hd⟩
    have hmf : m ∈ models.filter (fun m' => bucketKey m'.id == bucketKey m.id) :=
      List.mem_filter.2 ⟨hm, by simp⟩
    have hne : models.filter (fun m' => bucketKey m'.id == bucketKey m.id) ≠ [] :=
      List.ne_nil_of_mem hmf
    refine ⟨{ range := bucketKey m.id, description := d
              models := models.filter fun m' => bucketKey m'.id == bucketKey m.id }, ?_, hmf, ?_⟩
    · rw [categorizeModels]
      refine List.mem_filter.2 ⟨List.mem_map.2 ⟨(bucketKey m.id, d), hd, rfl⟩, ?_⟩
      have hf : (models.filter fun m' => bucketKey m'.id == bucketKey m.id).isEmpty = false := by
        cases hh : (models.filter fun m' => bucketKey m'.id == bucketKey m.id).isEmpty
        · rfl
        · exact absurd (List.isEmpty_iff.1 hh) hne
      simp [hf]
    · intro k' c' hk' hm'
      have h2 := (hmem k' c' hk').2.1
      rw [h2] at hm'
      have := (List.mem_filter.1 hm').2
      have h3 : bucketKey m.id = k' := by simpa using this
      exact h3.symm
  · intro n hn
    simp only [bucketKey]
    split_ifs <;> first | rfl | (exfalso; omega)

end SMV

namespace SMV

def exCatModels : List ModelInfo :=
  [⟨0, "m0", none, none, "f0"⟩, ⟨900, "m900", none, none, "f900"⟩]

/-- C6 witness: the bucket facts evaluated on a two-model catalog hitting the
extreme buckets. -/
theorem claim_C6_witness :
    (("1-99", (⟨"1-99", "Common & Basic Models",
        [⟨0, "m0", none, none, "f0"⟩]⟩ : Category)) ∈
      categorizeModels exCatModels) ∧
    ((⟨"1-99", "Common & Basic Models",
        [⟨0, "m0", none, none, "f0"⟩]⟩ : Category)).models =
      exCatModels.filter (fun m => bucketKey m.id == "1-99") :=
  ⟨by decide, ((claim_C6 exCatModels).2.1 "1-99" _ (by decide)).2.1⟩

/-! ## Claim C7 (corrected) -/

def cexGroup : Group := Group.mk "g" none none [] []

/-- A record document that has BOTH an `id` field (value 0) and a `group`. -/
def cexDoc : RawDoc := ⟨some 0, none, none, some cexGroup⟩

def cexFetch : String → Option RawDoc := fun _ => some cexDoc

def cexInfo : ModelInfo := ⟨0, "model_0", none, none, "model_0.json"⟩

def prevModel : SunSpecModel := ⟨1, none, none, none⟩

/-- A state currently displaying a model. -/
def cexState : AppState := ⟨some prevModel, none, "", false⟩

/-- C7, counterexample: a fetched document with `id: 0` and a `group` lacks
neither required property, yet `handleModelSelect` raises the validation
error, because the JS check `!modelData.id` treats the number 0 as missing. -/
theorem claim_C7_cex :
    cexFetch cexInfo.filename = some cexDoc ∧
    cexDoc.id ≠ none ∧
    cexDoc.group ≠ none ∧
    (handleModelSelect cexFetch cexInfo cexState).error = invalidModelMsg ∧
    (handleModelSelect cexFetch cexInfo cexState).model = cexState.model :=
  ⟨rfl, by decide, fun h => Option.noConfusion h, rfl, rfl⟩

/-- C7 as amended: when the fetch succeeds, the selection fails with the
validation error exactly when the document's `id` is absent or 0 (JS-falsy)
or its `group` is absent; any such validation failure, and any transport
failure, leaves the displayed model untouched; and the validation message is
distinct from every transport message. -/
theorem claim_C7 (fetch : String → Option RawDoc) (mi : ModelInfo) (s : AppState) :
    (∀ doc, fetch mi.filename = some doc →
      (((handleModelSelect fetch mi s).error = invalidModelMsg) ↔
        (jsFalsyNat doc.id || doc.group.isNone) = true)) ∧
    (∀ doc, fetch mi.filename = some doc →
      (jsFalsyNat doc.id || doc.group.isNone) = true →
      (handleModelSelect fetch mi s).model = s.model) ∧
    (fetch mi.filename = none →
      (handleModelSelect fetch mi s).error = transportMsg mi.filename ∧
      (handleModelSelect fetch mi s).model = s.model) ∧
    (∀ f : String, invalidModelMsg ≠ transportMsg f) := by
  refine ⟨?_, ?_, ?_, ?_⟩
  · intro doc hdoc
    by_cases hc : (jsFalsyNat doc.id || doc.group.isNone) = true
    · simp [handleModelSelect, hdoc, hc]
    · simp only [handleModelSelect, hdoc]
      rw [if_neg hc]
      constructor
      · intro habs
        have habs2 : ("" : String) = invalidModelMsg := habs
        exact absurd habs2 (by decide)
      · intro hfalse
        exact absurd hfalse hc
  · intro doc hdoc hc
    simp [handleModelSelect, hdoc, hc]
  · intro hnone
    simp [handleModelSelect, hnone]
  · intro f h
    have hd : invalidModelMsg.data.head? = (transportMsg f).data.head? := by rw [h]
    rw [show invalidModelMsg.data.head? = some 'I' from rfl] at hd
    have hf : (transportMsg f).data.head? = some 'F' := by
      rw [transportMsg, String.data_append]
      rfl
    rw [hf] at hd
    exact absurd (Option.some.inj hd) (by decide)

def wDoc : RawDoc := ⟨some 5, none, none, some cexGroup⟩

def wFetch : String → Option RawDoc := fun _ => some wDoc

/-- C7 witness: the amended characterization evaluated on a valid document. -/
theorem claim_C7_witness :
    wFetch cexInfo.filename = some wDoc ∧
    (((handleModelSelect wFetch cexInfo cexState).error = invalidModelMsg) ↔
      (jsFalsyNat wDoc.id || wDoc.group.isNone) = true) :=
  ⟨rfl, (claim_C7 wFetch cexInfo cexState).1 wDoc rfl⟩

/-! ## Claim C8 (corrected) -/

/-- Modelled from the claim's words, for the counterexample only: the pattern
`model_<digits>` with no `.json` after the digits — one attempt at the start
of `s`. -/
def matchModelIdSpecAt (s : List Char) : Option Nat :=
  if ('m' :: 'o' :: 'd' :: 'e' :: 'l' :: '_' :: []).isPrefixOf s then
    let t := s.drop 6
    let ds := t.takeWhile Char.isDigit
    if ds.isEmpty then none else some (digitsToNat ds)
  else none

/-- Modelled from the claim's words: leftmost occurrence of `model_<digits>`
in `s`. -/
def findModelIdSpec : List Char → Option Nat
  | [] => none
  | c :: rest =>
    match matchModelIdSpecAt (c :: rest) with
    | some n => some n
    | none => findModelIdSpec rest

def cexDoc8 : RawDoc := ⟨some 42, none, none, none⟩

/-- C8, counterexample: the source name `"model_7"` matches the claim's
pattern `model_<digits>`, so per the claim the filename should win and the id
be 7; but the code's regex requires a following `".json"`, does not match,
and the payload id 42 is used instead. -/
theorem claim_C8_cex :
    findModelIdSpec "model_7".data = some 7 ∧
    findModelId "model_7".data = none ∧
    cexDoc8.id = some 42 ∧
    (extractModelInfo "model_7" cexDoc8).id = 42 := by
  refine ⟨by decide, by decide, rfl, by decide⟩

def exDoc8 : RawDoc := ⟨none, none, none, some (Group.mk "" (some "Meter") none [] [])⟩

/-- C8 as amended: the id is resolved by (1) the decimal integer of the
leftmost occurrence of `model_<digits>.json` in the source name — winning
over the payload even when they disagree; (2) else the payload's id when
present; (3) else 0.  In particular `extract("model_103.json",
{group:{label:"Meter"}})` yields id 103, name `"model_103"`, label
`"Meter"`. -/
theorem claim_C8 (name : String) (doc : RawDoc) :
    (∀ n, findModelId name.data = some n → (extractModelInfo name doc).id = n) ∧
    (findModelId name.data = none → ∀ k, doc.id = some k →
      (extractModelInfo name doc).id = k) ∧
    (findModelId name.data = none → doc.id = none →
      (extractModelInfo name doc).id = 0) ∧
    (extractModelInfo "model_103.json" exDoc8).id = 103 ∧
    (extractModelInfo "model_103.json" exDoc8).name = "model_103" ∧
    (extractModelInfo "model_103.json" exDoc8).label = some "Meter" := by
  refine ⟨?_, ?_, ?_, by decide, by decide, by decide⟩
  · intro n h
    simp [extractModelInfo, h]
  · intro h k hk
    simp [extractModelInfo, h, hk]
  · intro h hk
    simp [extractModelInfo, h, hk]

def wDoc8 : RawDoc := ⟨some 4, none, none, none⟩

/-- C8 witness: the filename pattern wins over a disagreeing payload id. -/
theorem claim_C8_witness :
    findModelId "model_9.json".data = some 9 ∧
    wDoc8.id = some 4 ∧
    (extractModelInfo "model_9.json" wDoc8).id = 9 :=
  ⟨by decide, rfl, (claim_C8 "model_9.json" wDoc8).1 9 (by decide)⟩

/-! ## Claim C9 (corrected) -/

def exDoc9 : RawDoc := ⟨none, none, none, none⟩

/-- C9, counterexample: `"a.jsonb"` does not end in `".json"`, so per the
claim the name should be unchanged; the code's `replace(".json", "")`
removes the FIRST occurrence anywhere and yields `"ab"`. -/
theorem claim_C9_cex :
    List.isSuffixOf ".json".data "a.jsonb".data = false ∧
    (extractModelInfo "a.jsonb" exDoc9).name = "ab" ∧
    (extractModelInfo "a.jsonb" exDoc9).name ≠ "a.jsonb" :=
  ⟨by decide, by decide, by decide⟩

theorem removeFirstJson_id :
    ∀ l : List Char,
      containsSub l ('.' :: 'j' :: 's' :: 'o' :: 'n' :: []) = false →
      removeFirstJson l = l := by
  intro l
  induction l with
  | nil => intro _; rfl
  | cons c rest ih =>
      intro h
      rw [containsSub] at h
      by_cases hp : (('.' :: 'j' :: 's' :: 'o' :: 'n' :: []).isPrefixOf (c :: rest)) = true
      · rw [if_pos hp] at h
        cases h
      · rw [if_neg hp] at h
        rw [removeFirstJson, if_neg hp, ih h]

/-- C9 as amended: the descriptor's name is the source name with the FIRST
occurrence of `".json"` removed (not only a trailing suffix); when the source
name contains no `".json"` at all it is unchanged.  `"a.jsonb.json"` becomes
`"ab.json"`, not `"a.jsonb"`. -/
theorem claim_C9 (name : String) (doc : RawDoc) :
    (extractModelInfo name doc).name = ⟨removeFirstJson name.data⟩ ∧
    (containsSub name.data ('.' :: 'j' :: 's' :: 'o' :: 'n' :: []) = false →
      (extractModelInfo name doc).name = name) ∧
    (extractModelInfo "model_103.json" exDoc9).name = "model_103" ∧
    (extractModelInfo "a.jsonb.json" exDoc9).name = "ab.json" := by
  refine ⟨rfl, ?_, by decide, by decide⟩
  intro h
  show (⟨removeFirstJson name.data⟩ : String) = name
  rw [removeFirstJson_id name.data h]

/-- C9 witness: a name with no `".json"` is untouched. -/
theorem claim_C9_witness :
    containsSub "model7".data ('.' :: 'j' :: 's' :: 'o' :: 'n' :: []) = false ∧
    (extractModelInfo "model7" exDoc9).name = "model7" :=
  ⟨by decide, (claim_C9 "model7" exDoc9).2.1 (by decide)⟩

end SMV

namespace SMV

/-- C2 witness: the root facts evaluated on the sample model. -/
theorem claim_C2_witness :
    (buildTree ["root"] sampleModel).id = "root" ∧
    (buildTree ["root"] sampleModel).children.map TreeNode.id = ["root_group"] :=
  ⟨(claim_C2 ["root"] sampleModel).1, by decide⟩

/-- C3 witness: the id list of the sample tree, concretely, and its
duplicate-freeness. -/
theorem claim_C3_witness :
    (allIds (buildTree ["root"] sampleModel)).Nodup ∧
    allIds (buildTree ["root"] sampleModel) =
      ["root", "root_group", "root_group_point_0", "root_group_point_1"] :=
  ⟨(claim_C3 ["root"] sampleModel).2.2, by decide⟩

/-- C5 witness: the stability example and the sortedness of the
four-of-five-fetches catalog. -/
theorem claim_C5_witness :
    sortById [d50, d2a, d2b, d10] = [d2a, d2b, d10, d50] ∧
    (getAllModelsWithMetadata exFiles exFetch).Pairwise (fun a b => a.id ≤ b.id) :=
  ⟨(claim_C5 exFiles exFetch).2.2.2.1, (claim_C5 exFiles exFetch).2.1⟩

end SMV
